import Mathlib

/-!
Verification development for the princess script-extraction pipeline.

The definitions below are shallow embeddings of the Python sources:
  * `src/princess/text.py` and `src/princess/voice.py` (choice-text cleaning),
  * `src/princess/parser.py` (the Lark `ChoicesTransformer`),
  * `src/princess/pipeline.py` (`filter_spoken_lines`, `run_pipeline`),
  * `src/princess/tts/extractor.py` (`extract_all_choices`),
  * `src/princess/models.py` (`ChoiceResult`).

Regular-expression substitutions from the sources are implemented as
character-list scanners that reproduce the leftmost, non-overlapping
matching discipline of Python `re.sub` / `re.findall` for the concrete
patterns appearing in the code.
-/

/-- The apostrophe character, written via its code point. -/
def squote : Char := Char.ofNat 39

/-- Two consecutive apostrophes, the quoted-span delimiter of the scripts. -/
def dquote2 : String := String.mk [squote, squote]

/-- Python `\s` on the ASCII range: the whitespace class used by the
cleaning regexes (`\s+` after a bullet or a parenthesised prefix, and the
trailing `\s` of the non-verbal-verb pattern). -/
def isPySpace (c : Char) : Bool :=
  c = ' ' || c = '\t' || c = '\n' || c = Char.ofNat 11 || c = Char.ofNat 12 || c = '\r'

/-- Boolean substring test on character lists (`pat in text` in Python). -/
def containsSub (pat : List Char) : List Char → Bool
  | [] => pat.isEmpty
  | c :: rest => pat.isPrefixOf (c :: rest) || containsSub pat rest

/-- Consume a maximal run of whitespace (the greedy `\s+` tail of a match). -/
def dropPySpaces : List Char → List Char
  | [] => []
  | c :: rest => if isPySpace c then dropPySpaces rest else c :: rest

/-- Does the list start with a whitespace character? (the `\s` right after
a matched literal). -/
def nextIsSpace : List Char → Bool
  | d :: _ => isPySpace d
  | [] => false

/-- `re.sub(r"<bullet>\s+", "", s)` where `<bullet>` is a fixed literal:
remove every occurrence of the literal followed by at least one whitespace
character, together with the maximal whitespace run that follows it.
The scanner advances one character when no match starts at the current
position, exactly like the Python regex engine.  Fuel-structured; the fuel
passed by `subLiteralSpaces` is always sufficient. -/
def subLiteralSpacesF (lit : List Char) : Nat → List Char → List Char
  | 0, l => l
  | _ + 1, [] => []
  | fuel + 1, c :: rest =>
    if lit.isPrefixOf (c :: rest) && nextIsSpace ((c :: rest).drop lit.length) then
      subLiteralSpacesF lit fuel (dropPySpaces ((c :: rest).drop lit.length))
    else
      c :: subLiteralSpacesF lit fuel rest

/-- `re.sub(r"<lit>\s+", "", s)` for a fixed non-empty literal. -/
def subLiteralSpaces (lit : List Char) (l : List Char) : List Char :=
  subLiteralSpacesF lit (l.length + 1) l

/-- One-pass scanner for `re.sub(r"\{[^\}]+\}", "", s)`.
`pending = some buf` means a `{` has been read and `buf` holds the
characters (reversed) seen since; a `}` then closes and removes the span
when the buffer is non-empty (`[^\}]+` needs at least one character),
while `{}` fails to match and is emitted verbatim. -/
def stripFormattingGo (pending : Option (List Char)) : List Char → List Char
  | [] =>
    match pending with
    | none => []
    | some buf => '{' :: buf.reverse
  | c :: rest =>
    match pending with
    | none =>
      if c = '{' then stripFormattingGo (some []) rest
      else c :: stripFormattingGo none rest
    | some buf =>
      if c = '}' then
        if buf.isEmpty then '{' :: '}' :: stripFormattingGo none rest
        else stripFormattingGo none rest
      else stripFormattingGo (some (c :: buf)) rest

/-- `formatting_re.sub("", s)` with `formatting_re = \{[^\}]+\}`. -/
def stripFormatting (l : List Char) : List Char := stripFormattingGo none l

/-- Scanner state for the parenthesised-prefix pattern `\([^\)]+\)\s+`. -/
inductive ParenMode where
  | normal
  | inParen (buf : List Char)
  | afterClose (buf : List Char)
  | eatingSpaces
deriving DecidableEq

/-- One-pass scanner for `re.sub(r"\([^\)]+\)\s+", "", s)`.
After `(`, characters are buffered until `)`; the match succeeds only when
at least one whitespace character follows the `)`, in which case the whole
span plus the maximal whitespace run is dropped.  When the attempt fails
(no content, or no whitespace after `)`), the buffered text is emitted and
scanning resumes after the `)` — no successful match can start inside a
failed attempt, because the failed span contains no other `)`. -/
def stripPrefixesGo (mode : ParenMode) : List Char → List Char
  | [] =>
    match mode with
    | .normal => []
    | .inParen buf => '(' :: buf.reverse
    | .afterClose buf => '(' :: (buf.reverse ++ [')'])
    | .eatingSpaces => []
  | c :: rest =>
    match mode with
    | .normal =>
      if c = '(' then stripPrefixesGo (.inParen []) rest
      else c :: stripPrefixesGo .normal rest
    | .inParen buf =>
      if c = ')' then
        if buf.isEmpty then '(' :: ')' :: stripPrefixesGo .normal rest
        else stripPrefixesGo (.afterClose buf) rest
      else stripPrefixesGo (.inParen (c :: buf)) rest
    | .afterClose buf =>
      if isPySpace c then stripPrefixesGo .eatingSpaces rest
      else '(' :: (buf.reverse ++ ')' ::
        (if c = '(' then stripPrefixesGo (.inParen []) rest
         else c :: stripPrefixesGo .normal rest))
    | .eatingSpaces =>
      if isPySpace c then stripPrefixesGo .eatingSpaces rest
      else if c = '(' then stripPrefixesGo (.inParen []) rest
      else c :: stripPrefixesGo .normal rest

/-- `prefixes_re.sub("", s)` with `prefixes_re = \([^\)]+\)\s+`. -/
def stripPrefixes (l : List Char) : List Char := stripPrefixesGo .normal l

/-- Scanner state for the action-link pattern `\[\[[^]]+\]`. -/
inductive ActionMode where
  | normal
  | sawBracket
  | inAction (buf : List Char)
deriving DecidableEq

/-- One-pass scanner for `re.sub(r"\[\[[^]]+\]", "", s)`: a literal `[[`,
at least one non-`]` character, and a closing `]` are removed. -/
def stripActionsGo (mode : ActionMode) : List Char → List Char
  | [] =>
    match mode with
    | .normal => []
    | .sawBracket => ['[']
    | .inAction buf => '[' :: '[' :: buf.reverse
  | c :: rest =>
    match mode with
    | .normal =>
      if c = '[' then stripActionsGo .sawBracket rest
      else c :: stripActionsGo .normal rest
    | .sawBracket =>
      if c = '[' then stripActionsGo (.inAction []) rest
      else '[' :: c :: stripActionsGo .normal rest
    | .inAction buf =>
      if c = ']' then
        if buf.isEmpty then '[' :: '[' :: ']' :: stripActionsGo .normal rest
        else stripActionsGo .normal rest
      else stripActionsGo (.inAction (c :: buf)) rest

/-- `actions_re.sub("", s)` with `actions_re = \[\[[^]]+\]`. -/
def stripActions (l : List Char) : List Char := stripActionsGo .normal l

/-- `unwanted_re.sub("", s)` with `unwanted_re = Ugh!|\(|\)` (text.py only):
every literal `Ugh!` and every single parenthesis is removed, scanning
left to right without re-examining produced text; the alternation is tried
in pattern order at each position.  Fuel-structured. -/
def stripUnwantedF : Nat → List Char → List Char
  | 0, l => l
  | _ + 1, [] => []
  | fuel + 1, c :: rest =>
    if ("Ugh!").data.isPrefixOf (c :: rest) then
      stripUnwantedF fuel ((c :: rest).drop 4)
    else if c = '(' || c = ')' then stripUnwantedF fuel rest
    else c :: stripUnwantedF fuel rest

/-- `unwanted_re.sub("", s)`. -/
def stripUnwanted (l : List Char) : List Char := stripUnwantedF (l.length + 1) l

/-- `s.replace(old, new)` on character lists: replace all non-overlapping
occurrences of `old`, scanning left to right. -/
def replaceAllF (old new : List Char) : Nat → List Char → List Char
  | 0, l => l
  | _ + 1, [] => []
  | fuel + 1, c :: rest =>
    if !old.isEmpty && old.isPrefixOf (c :: rest) then
      new ++ replaceAllF old new fuel ((c :: rest).drop old.length)
    else
      c :: replaceAllF old new fuel rest

/-- `s.replace(old, new)`; the fuel is large enough for the scan. -/
def replaceAll (old new : List Char) (l : List Char) : List Char :=
  replaceAllF old new (l.length + 1) l

/-- Inner walker of the quoted-span search `re.findall(r"''(.+?)''", s)`:
given the text after an opening delimiter and a non-empty reversed buffer
of content read so far, close at the first following delimiter (the lazy
`+?`), or fail at a newline (`.` does not match `\n`) or the end. -/
def spanGo (buf : List Char) : List Char → Option (List Char × List Char)
  | c :: d :: rest =>
    if c = squote && d = squote then some (buf.reverse, rest)
    else if c = '\n' then none
    else spanGo (c :: buf) (d :: rest)
  | [_] => none
  | [] => none

/-- Try to read the non-empty content of a span right after `''`. -/
def spanAttempt : List Char → Option (List Char × List Char)
  | [] => none
  | c :: rest => if c = '\n' then none else spanGo [c] rest

/-- `re.findall(r"''(.+?)''", s)`: all non-overlapping quoted spans,
scanning left to right; after a failed attempt the scan resumes one
character after the failed opening delimiter.  Structured on a fuel that
is at least the length of the text. -/
def findSpansF : Nat → List Char → List (List Char)
  | 0, _ => []
  | _ + 1, [] => []
  | fuel + 1, c :: rest =>
    if c = squote then
      match rest with
      | d :: rest2 =>
        if d = squote then
          match spanAttempt rest2 with
          | some (span, after) => span :: findSpansF fuel after
          | none => findSpansF fuel rest
        else findSpansF fuel rest
      | [] => []
    else
      findSpansF fuel rest

/-- All quoted spans of a text. -/
def findSpans (l : List Char) : List (List Char) := findSpansF (l.length + 1) l

/-- The non-verbal action verbs of `special_re` (identical in text.py and
voice.py). -/
def specialVerbs : List String :=
  ["Say", "Join", "Follow", "Play", "Return", "Make", "Continue", "Ignore",
   "Embrace", "Investigate", "Go", "Do", "Drop", "Tighten", "Kneel", "Force", "Try"]

/-- `special_re.search(s)`: the text starts with one of the verbs followed
by a whitespace character (the pattern is anchored with `^`). -/
def specialHit (l : List Char) : Bool :=
  specialVerbs.any fun v =>
    v.data.isPrefixOf l &&
      (match l.drop v.data.length with
       | d :: _ => isPySpace d
       | [] => false)

/-- The `rewrites` table key shared by text.py and voice.py. -/
def rewriteKey : String :=
  String.mk (("N-no. I w-won").data ++ [squote] ++ ("t t-tell you.").data)

/-- The `rewrites` table value. -/
def rewriteVal : String :=
  String.mk (("No, I won").data ++ [squote] ++ ("t tell you.").data)

/-- `rewrites.get(choice, choice)`. -/
def rewritesGet (s : String) : String :=
  if s = rewriteKey then rewriteVal else s

/-- The single `replacements` key of text.py: `'Mr. Anatomy'`. -/
def replacementsKey : List Char := [squote] ++ ("Mr. Anatomy").data ++ [squote]

/-- The single `replacements` value of text.py: `Mr. Anatomy`. -/
def replacementsVal : List Char := ("Mr. Anatomy").data

/-- The mojibake bullet literal of text.py's `bullet_re`. -/
def bulletTextPy : List Char := ("â€¢").data

/-- The bullet literal of voice.py's `bullet_re`. -/
def bulletVoicePy : List Char := ("•").data

/-- The markup passes of `princess/text.py`'s `clean_choice_for_voice`
applied in source order: bullet, formatting, parenthesised prefixes,
action links, `unwanted_re`, and the `replacements` table. -/
def strippedTextPy (choice : String) : List Char :=
  replaceAll replacementsKey replacementsVal
    (stripUnwanted
      (stripActions
        (stripPrefixes
          (stripFormatting
            (subLiteralSpaces bulletTextPy choice.data)))))

/-- The decision tail shared verbatim by text.py's and voice.py's
`clean_choice_for_voice` after their markup passes: if quoted spans remain
they are the spoken text (joined by single spaces, Python `" ".join`);
otherwise non-verbal lines and empty text are dropped and the `rewrites`
table is applied to what is left. -/
def clean_tail (l : List Char) : Option String :=
  match findSpans l with
  | span :: spans => some (String.intercalate (" ") ((span :: spans).map String.mk))
  | [] =>
    if specialHit l then none
    else if l.isEmpty then none
    else some (rewritesGet (String.mk l))

namespace PText

/-- `princess/text.py clean_choice_for_voice`. -/
def clean_choice_for_voice (choice : String) : Option String :=
  clean_tail (strippedTextPy choice)

end PText

/-- The markup passes of `princess/voice.py`'s `clean_choice_for_voice`
(no `unwanted_re`, no `replacements`, and a proper bullet character). -/
def strippedVoicePy (choice : String) : List Char :=
  stripActions
    (stripPrefixes
      (stripFormatting
        (subLiteralSpaces bulletVoicePy choice.data)))

namespace PVoice

/-- `princess/voice.py clean_choice_for_voice`, the variant the pipeline
imports. -/
def clean_choice_for_voice (choice : String) : Option String :=
  clean_tail (strippedVoicePy choice)

end PVoice

/-- parser.py dataclass `Text`: a token with its source line (produced by
the `identifier` and `quoted` transformer callbacks from `meta.line`). -/
structure Text where
  line : Nat
  text : String
deriving DecidableEq

/-- parser.py dataclass `Dialogue`. -/
structure Dialogue where
  line : Nat
  character : String
  text : String
  voice : Option String := none
deriving DecidableEq

/-- parser.py dataclass `Choice`.  In the source `next_dialogue` defaults
to `None` but is always assigned a list when the `choice` callback builds
the record, so it is modelled as a list; `label` and `prev_dialogue` stay
`None` until `start` fills them in. -/
structure Choice where
  line : Nat
  choice : String
  condition : Option String
  label : Option String := none
  prev_dialogue : Option (List Dialogue) := none
  next_dialogue : List Dialogue := []
deriving DecidableEq

/-- parser.py dataclass `Menu` (collected in `self.menus`). -/
structure Menu where
  line : Nat
  choices : List Choice
deriving DecidableEq

/-- parser.py dataclass `Label` (collected in `self.labels`). -/
structure Label where
  line : Nat
  label : String
deriving DecidableEq

/-!
The parse trees fed to `ChoicesTransformer`, following the Lark grammar

    start: statement*
    ?statement: label | menu | voiced_dialogue | dialogue
    block: _INDENT statement* _DEDENT
    label: "label" identifier ":" _NL block?
    menu: "menu" ":" _NL _INDENT choice+ _DEDENT
    choice: quoted condition? ":" _NL block?
    voiced_dialogue: voice _NL dialogue
    dialogue: identifier quoted ["id" identifier] _NL

Statement lists are the mutually inductive `PForest` (an absent optional
`block?` is represented by the empty statement list: a parsed block always
holds at least one statement, and both shapes behave identically in every
transformer callback).  Each token carries its `meta.line`.
-/

mutual

inductive PTree where
  | dialogueStx (charTok textTok : Text)
  | voicedStx (voiceTok charTok textTok : Text)
  | labelStx (nameTok : Text) (body : PForest)
  | menuStx (line : Nat) (choices : CForest)

inductive PForest where
  | nil
  | cons (t : PTree) (ts : PForest)

inductive CStx where
  | mk (quotedTok : Text) (condition : Option String) (body : PForest)

inductive CForest where
  | nil
  | cons (c : CStx) (cs : CForest)

end

/-!
The values the transformer callbacks return.  `dialogue`/`voiced_dialogue`
return `Dialogue` records; `label` returns `Tree("label", [name, block?])`;
`menu` returns `Tree("menu", choices)`; a `block` rule has no callback and
stays a `Tree("block", children)`.  Note that a transformed menu subtree is
a `Tree`, not a `Menu` dataclass instance.
-/

mutual

inductive TItem where
  | dlg (d : Dialogue)
  | labelTree (name : Text) (rest : TForest)
  | blockTree (children : TForest)
  | menuTree (choices : List Choice)

inductive TForest where
  | nil
  | cons (i : TItem) (rest : TForest)

end

/-- The transformer state: `self.labels`, `self.dialogues`, `self.menus`,
appended to as each subtree's callback fires (bottom-up, left to right). -/
structure TState where
  labels : List Label := []
  dialogues : List Dialogue := []
  menus : List Menu := []
deriving DecidableEq

/-- `ChoicesTransformer._filter_dialogue`: drop dialogue whose text starts
with a note marker or contains a `{fast}` tag. -/
def filter_dialogue (dlg : Dialogue) : Bool :=
  !(("Note:").data.isPrefixOf dlg.text.data || containsSub (("{fast}").data) dlg.text.data)

/-- `ChoicesTransformer.extract_next_dialogue`: walk the transformed
children of a choice, yield `Dialogue` values, recurse into label subtrees
(skipping the name child) and block subtrees.  A transformed menu subtree
matches none of the `isinstance(item, Dialogue)` / `isinstance(item, Menu)`
/ `item.data == ...` branches that yield, break or recurse — the
`isinstance(item, Menu)` break never fires because `menu` callbacks return
`Tree("menu", ...)` — so the loop continues past it. -/
def extract_next_dialogue : TForest → List Dialogue
  | .nil => []
  | .cons item rest =>
    match item with
    | .dlg d => d :: extract_next_dialogue rest
    | .menuTree _ => extract_next_dialogue rest
    | .labelTree _ ls => extract_next_dialogue ls ++ extract_next_dialogue rest
    | .blockTree cs => extract_next_dialogue cs ++ extract_next_dialogue rest

mutual

/-- Transform one statement subtree, threading the transformer state in
Lark's bottom-up, left-to-right callback order. -/
def transformItem : PTree → TState → TItem × TState
  | .dialogueStx charTok textTok, st =>
    (.dlg { line := charTok.line, character := charTok.text, text := textTok.text }, st)
  | .voicedStx voiceTok charTok textTok, st =>
    let d : Dialogue :=
      { line := charTok.line, character := charTok.text, text := textTok.text,
        voice := some voiceTok.text }
    (.dlg d, if filter_dialogue d then { st with dialogues := st.dialogues ++ [d] } else st)
  | .labelStx nameTok body, st =>
    let p := transformForest body st
    let st2 := { p.2 with labels := p.2.labels ++ [{ line := nameTok.line, label := nameTok.text }] }
    (.labelTree nameTok (.cons (.blockTree p.1) .nil), st2)
  | .menuStx line choices, st =>
    let p := transformChoices choices st
    let st2 := { p.2 with menus := p.2.menus ++ [{ line := line, choices := p.1 }] }
    (.menuTree p.1, st2)

/-- Transform a statement list left to right. -/
def transformForest : PForest → TState → TForest × TState
  | .nil, st => (.nil, st)
  | .cons t ts, st =>
    let p := transformItem t st
    let q := transformForest ts p.2
    (.cons p.1 q.1, q.2)

/-- `ChoicesTransformer.choice`: build the `Choice` record, computing
`next_dialogue` from the transformed block subtree. -/
def transformChoice : CStx → TState → Choice × TState
  | .mk quotedTok cond body, st =>
    let p := transformForest body st
    let nd := extract_next_dialogue (.cons (.blockTree p.1) .nil)
    ({ line := quotedTok.line, choice := quotedTok.text, condition := cond,
       next_dialogue := nd }, p.2)

/-- Transform the choices of a menu left to right. -/
def transformChoices : CForest → TState → List Choice × TState
  | .nil, st => ([], st)
  | .cons c cs, st =>
    let p := transformChoice c st
    let q := transformChoices cs p.2
    (p.1 :: q.1, q.2)

end

/-- `ChoicesTransformer._find_context_at_line`: among the items whose line
is at most `line`, the one `bisect_right` finds in the stably line-sorted
copy — maximal line, latest original position among equal lines; `none`
models the bare `Line(line=1)` sentinel returned when no item qualifies. -/
def find_context_at_line {α : Type} (getLine : α → Nat) (items : List α) (line : Nat) :
    Option α :=
  items.foldl
    (fun acc it =>
      if getLine it ≤ line then
        match acc with
        | none => some it
        | some best => if getLine best ≤ getLine it then some it else some best
      else acc)
    none

/-- `ChoicesTransformer.find_label_at_line`. -/
def find_label_at_line (labels : List Label) (line : Nat) : Option Label :=
  find_context_at_line Label.line labels line

/-- `ChoicesTransformer.find_menu_before_line`, reduced to the only field
`start` reads from its result: the found menu's line, or `1` from the
`Line(line=1)` sentinel. -/
def find_menu_before_line (menus : List Menu) (line : Nat) : Nat :=
  match find_context_at_line Menu.line menus (line - 1) with
  | some m => m.line
  | none => 1

/-- `ChoicesTransformer.find_prev_dialogue`: collected voiced dialogues
strictly between two lines. -/
def find_prev_dialogue (dialogues : List Dialogue) (start stop : Nat) : List Dialogue :=
  dialogues.filter fun d => start < d.line && d.line < stop

/-- Stable insertion below every earlier record of a smaller-or-equal
line, mirroring the stability of Python's `sorted`. -/
def insertByLine (c : Choice) : List Choice → List Choice
  | [] => [c]
  | b :: l => if b.line ≤ c.line then b :: insertByLine c l else c :: b :: l

/-- `sorted(choices, key=attrgetter("line"))`: stable sort by line. -/
def sortByLine (l : List Choice) : List Choice :=
  l.foldl (fun acc c => insertByLine c acc) []

/-- The body of `ChoicesTransformer.start`'s inner loop: attach to one
choice of one menu the label found at the choice's line and the voiced
dialogues between the previous menu and this menu.  `none` models the
`AttributeError` raised when `find_label_at_line` returns the bare `Line`
sentinel (which has no `.label` attribute). -/
def process_choice (st : TState) (menu : Menu) (choice : Choice) : Option Choice :=
  match find_label_at_line st.labels choice.line with
  | none => none
  | some lbl =>
    some { choice with
           label := some lbl.label,
           prev_dialogue := some (find_prev_dialogue st.dialogues
             (find_menu_before_line st.menus menu.line) menu.line) }

/-- `start`'s inner loop over one menu's choices; `none` once any
iteration raises. -/
def process_choices (st : TState) (menu : Menu) : List Choice → Option (List Choice)
  | [] => some []
  | c :: cs =>
    match process_choice st menu c, process_choices st menu cs with
    | some c2, some cs2 => some (c2 :: cs2)
    | _, _ => none

/-- `start`'s outer loop over the collected menus, accumulating the flat
`choices` list; `none` once any iteration raises. -/
def process_menus (st : TState) : List Menu → Option (List Choice)
  | [] => some []
  | m :: ms =>
    match process_choices st m m.choices, process_menus st ms with
    | some l1, some l2 => some (l1 ++ l2)
    | _, _ => none

/-- `ChoicesTransformer.start`: revisit every collected menu's choices and
return the enriched records sorted by line. -/
def startTransform (st : TState) : Option (List Choice) :=
  (process_menus st st.menus).map sortByLine

/-- `ChoicesTransformer().transform(tree)` on a whole parsed script:
transform every top-level statement starting from the empty state, then
run `start` on the collected state. -/
def choices_transform (ts : PForest) : Option (List Choice) :=
  startTransform (transformForest ts {}).2

namespace Models

/-- models.py `Dialogue` (pydantic): note the field is named `dialogue`
there, unlike the parser dataclass. -/
structure Dialogue where
  line : Nat
  character : String
  dialogue : String
  voice : Option String := none
deriving DecidableEq

/-- models.py `Choice` (pydantic); its `children` field is an untyped
`list` that no claim reads, so it is omitted here. -/
structure Choice where
  line : Nat
  choice : String
  condition : Option String := none
deriving DecidableEq

/-- An element of `previous_dialogues : list[Dialogue | Choice]`. -/
inductive PrevItem where
  | dlg (d : Dialogue)
  | chc (c : Choice)
deriving DecidableEq

/-- models.py `ChoiceResult`; `output : Path | None` is modelled as an
optional path string. -/
structure ChoiceResult where
  choice : String
  condition : Option String
  label : Option String
  previous_dialogues : List PrevItem
  subsequent_dialogues : List Dialogue
  path : Option String := none
  line : Option Nat := none
  output : Option String := none
  clean : Option String := none
deriving DecidableEq

end Models

/-- Modelled from the spec: voice.py's `get_output_path` hashes the raw
choice text with `sha256` (external library code; "compute a deterministic
hash of ... raw choice_text ... and derive audio_output_path from it").
The hash is modelled as a deterministic injective encoding of the text —
the identity — since no claim below depends on the digest's value. -/
def sha256_hexdigest (s : String) : String := s

/-- voice.py `get_output_path`: `Path("output/voice") / f"{hash}.flac"`,
reading only `choice.choice`. -/
def get_output_path (choice : Models.ChoiceResult) : String :=
  ("output/voice/") ++ sha256_hexdigest choice.choice ++ (".flac")

/-- pipeline.py `filter_spoken_lines`, the returned `ChoiceResultList`:
each record's `clean` is computed with voice.py's `clean_choice_for_voice`;
a record is appended exactly when its cleaned text is truthy (non-`None`
and non-empty) and not in the `seen` set, in which case its `clean` and
`output` fields have been set on the (mutated) record. -/
def filter_spoken_lines_go (seen : List String) :
    List Models.ChoiceResult → List Models.ChoiceResult
  | [] => []
  | c :: rest =>
    match PVoice.clean_choice_for_voice c.choice with
    | some s =>
      if !(s == "") && !(seen.contains s) then
        { c with clean := some s, output := some (get_output_path c) } ::
          filter_spoken_lines_go (s :: seen) rest
      else
        filter_spoken_lines_go seen rest
    | none => filter_spoken_lines_go seen rest

/-- pipeline.py `filter_spoken_lines` (return value). -/
def filter_spoken_lines (source : List Models.ChoiceResult) : List Models.ChoiceResult :=
  filter_spoken_lines_go [] source

/-- The state of `filter_spoken_lines`'s *input* records after the call:
the function assigns `choice.clean` on every record it visits and
additionally `choice.output` on the records it retains, in place. -/
def filter_spoken_lines_source_after_go (seen : List String) :
    List Models.ChoiceResult → List Models.ChoiceResult
  | [] => []
  | c :: rest =>
    match PVoice.clean_choice_for_voice c.choice with
    | some s =>
      if !(s == "") && !(seen.contains s) then
        { c with clean := some s, output := some (get_output_path c) } ::
          filter_spoken_lines_source_after_go (s :: seen) rest
      else
        { c with clean := some s } :: filter_spoken_lines_source_after_go seen rest
    | none => { c with clean := none } :: filter_spoken_lines_source_after_go seen rest

/-- The input list of `filter_spoken_lines` as it stands after the call. -/
def filter_spoken_lines_source_after (source : List Models.ChoiceResult) :
    List Models.ChoiceResult :=
  filter_spoken_lines_source_after_go [] source

/-- pipeline.py `run_pipeline`, the whole-corpus extraction loop
`for path in walk_script_files(): script = parse_script(path); ...extend(...)`:
there is no exception handler, so the first per-file failure propagates and
aborts the loop.  Each file is modelled by its path paired with the outcome
of parsing/extracting it (`Except`: an exception or the file's records). -/
def run_pipeline_extract {α : Type} :
    List (String × Except String (List α)) → Except String (List α)
  | [] => .ok []
  | (_, .error e) :: _ => .error e
  | (_, .ok cs) :: rest =>
    match run_pipeline_extract rest with
    | .error e => .error e
    | .ok acc => .ok (cs ++ acc)

/-- tts/extractor.py `extract_all_choices`: `try: ... except Exception as e:
print(...)` — a failing file's path and error are recorded and the loop
continues; successes are concatenated. -/
def extract_all_choices {α : Type} :
    List (String × Except String (List α)) → List (String × String) × List α
  | [] => ([], [])
  | (p, .error e) :: rest =>
    let r := extract_all_choices rest
    ((p, e) :: r.1, r.2)
  | (_, .ok cs) :: rest =>
    let r := extract_all_choices rest
    (r.1, cs ++ r.2)

theorem subLiteralSpacesF_id (a : Char) (lit : List Char) :
    ∀ (fuel : Nat) (l : List Char), a ∉ l → subLiteralSpacesF (a :: lit) fuel l = l := by
  intro fuel
  induction fuel with
  | zero => intro l _; rfl
  | succ n ih =>
    intro l hl
    cases l with
    | nil => rfl
    | cons c rest =>
      have hac : (a == c) = false := by
        simp only [beq_eq_false_iff_ne]
        intro h
        exact hl (h ▸ List.mem_cons_self a rest)
      have hpre : (a :: lit).isPrefixOf (c :: rest) = false := by
        simp [List.isPrefixOf, hac]
      have hrest : a ∉ rest := fun h => hl (List.mem_cons_of_mem c h)
      simp only [subLiteralSpacesF, hpre, Bool.false_and, Bool.false_eq_true, if_false]
      rw [ih rest hrest]

theorem stripFormattingGo_id : ∀ (l : List Char), '{' ∉ l → stripFormattingGo none l = l := by
  intro l
  induction l with
  | nil => intro _; rfl
  | cons c rest ih =>
    intro h
    have hc : ¬(c = '{') := fun hh => h (hh ▸ List.mem_cons_self c rest)
    have hr : '{' ∉ rest := fun hh => h (List.mem_cons_of_mem c hh)
    simp only [stripFormattingGo, if_neg hc]
    rw [ih hr]

theorem stripPrefixesGo_id : ∀ (l : List Char), '(' ∉ l → stripPrefixesGo .normal l = l := by
  intro l
  induction l with
  | nil => intro _; rfl
  | cons c rest ih =>
    intro h
    have hc : ¬(c = '(') := fun hh => h (hh ▸ List.mem_cons_self c rest)
    have hr : '(' ∉ rest := fun hh => h (List.mem_cons_of_mem c hh)
    simp only [stripPrefixesGo, if_neg hc]
    rw [ih hr]

theorem stripActionsGo_id : ∀ (l : List Char), '[' ∉ l → stripActionsGo .normal l = l := by
  intro l
  induction l with
  | nil => intro _; rfl
  | cons c rest ih =>
    intro h
    have hc : ¬(c = '[') := fun hh => h (hh ▸ List.mem_cons_self c rest)
    have hr : '[' ∉ rest := fun hh => h (List.mem_cons_of_mem c hh)
    simp only [stripActionsGo, if_neg hc]
    rw [ih hr]

theorem containsSub_tail {pat : List Char} {c : Char} {rest : List Char}
    (h : containsSub pat (c :: rest) = false) : containsSub pat rest = false := by
  simp only [containsSub, Bool.or_eq_false_iff] at h
  exact h.2

theorem containsSub_head {pat : List Char} {c : Char} {rest : List Char}
    (h : containsSub pat (c :: rest) = false) : pat.isPrefixOf (c :: rest) = false := by
  simp only [containsSub, Bool.or_eq_false_iff] at h
  exact h.1

theorem stripUnwantedF_id : ∀ (fuel : Nat) (l : List Char),
    containsSub (("Ugh!").data) l = false → '(' ∉ l → ')' ∉ l →
    stripUnwantedF fuel l = l := by
  intro fuel
  induction fuel with
  | zero => intro l _ _ _; rfl
  | succ n ih =>
    intro l hu hp hq
    cases l with
    | nil => rfl
    | cons c rest =>
      have h1 := containsSub_head hu
      have hcp : ¬(c = '(') := fun hh => hp (hh ▸ List.mem_cons_self c rest)
      have hcq : ¬(c = ')') := fun hh => hq (hh ▸ List.mem_cons_self c rest)
      have hpar : ¬((c = '(' || c = ')') = true) := by simp [hcp, hcq]
      simp only [stripUnwantedF, h1, Bool.false_eq_true, if_false, if_neg hpar]
      rw [ih rest (containsSub_tail hu) (fun hh => hp (List.mem_cons_of_mem c hh))
        (fun hh => hq (List.mem_cons_of_mem c hh))]

theorem replaceAllF_id (old new : List Char) : ∀ (fuel : Nat) (l : List Char),
    containsSub old l = false → replaceAllF old new fuel l = l := by
  intro fuel
  induction fuel with
  | zero => intro l _; rfl
  | succ n ih =>
    intro l h
    cases l with
    | nil => rfl
    | cons c rest =>
      have h1 := containsSub_head h
      simp only [replaceAllF, h1, Bool.and_false, Bool.false_eq_true, if_false]
      rw [ih rest (containsSub_tail h)]

theorem findSpansF_nil_of_no_dq : ∀ (fuel : Nat) (l : List Char),
    containsSub [squote, squote] l = false → findSpansF fuel l = [] := by
  intro fuel
  induction fuel with
  | zero => intro l _; rfl
  | succ n ih =>
    intro l h
    cases l with
    | nil => rfl
    | cons c rest =>
      by_cases hc : c = squote
      · cases rest with
        | nil => simp [findSpansF, hc]
        | cons d rest2 =>
          have hd : ¬(d = squote) := by
            intro hd
            have := containsSub_head h
            simp [List.isPrefixOf, hc, hd] at this
          simp only [findSpansF, if_pos hc, if_neg hd]
          exact ih _ (containsSub_tail h)
      · simp only [findSpansF, if_neg hc]
        exact ih _ (containsSub_tail h)

theorem spanGo_ne_nil : ∀ (l : List Char) (buf sp after : List Char),
    spanGo buf l = some (sp, after) → buf ≠ [] → sp ≠ [] := by
  intro l
  induction l with
  | nil => intro buf sp after h; simp [spanGo] at h
  | cons c rest ih =>
    intro buf sp after h hbuf
    cases rest with
    | nil => simp [spanGo] at h
    | cons d rest2 =>
      by_cases hq : (c = squote && d = squote) = true
      · simp only [spanGo, if_pos hq, Option.some.injEq, Prod.mk.injEq] at h
        rcases h with ⟨h1, _⟩
        subst h1
        simpa using hbuf
      · simp only [spanGo, if_neg hq] at h
        by_cases hn : c = '\n'
        · simp [hn] at h
        · simp only [if_neg hn] at h
          exact ih (c :: buf) sp after h (by simp)

theorem spanAttempt_ne_nil {l sp after : List Char}
    (h : spanAttempt l = some (sp, after)) : sp ≠ [] := by
  cases l with
  | nil => simp [spanAttempt] at h
  | cons c rest =>
    simp only [spanAttempt] at h
    by_cases hn : c = '\n'
    · simp [hn] at h
    · simp only [if_neg hn] at h
      exact spanGo_ne_nil rest [c] sp after h (by simp)

theorem findSpansF_mem_ne_nil : ∀ (fuel : Nat) (l sp : List Char),
    sp ∈ findSpansF fuel l → sp ≠ [] := by
  intro fuel
  induction fuel with
  | zero => intro l sp h; simp [findSpansF] at h
  | succ n ih =>
    intro l sp h
    cases l with
    | nil => simp [findSpansF] at h
    | cons c rest =>
      by_cases hc : c = squote
      · cases rest with
        | nil => simp [findSpansF, hc] at h
        | cons d rest2 =>
          by_cases hd : d = squote
          · simp only [findSpansF, if_pos hc, if_pos hd] at h
            cases hsp : spanAttempt rest2 with
            | some pr =>
              obtain ⟨sp2, after2⟩ := pr
              rw [hsp] at h
              rcases List.mem_cons.mp h with heq | hmem
              · subst heq
                exact spanAttempt_ne_nil hsp
              · exact ih _ _ hmem
            | none =>
              rw [hsp] at h
              exact ih _ _ h
          · simp only [findSpansF, if_pos hc, if_neg hd] at h
            exact ih _ _ h
      · simp only [findSpansF, if_neg hc] at h
        exact ih _ _ h

theorem intercalate_go_ne_empty (s : String) : ∀ (as : List String) (a : String),
    a ≠ "" → String.intercalate.go a s as ≠ "" := by
  intro as
  induction as with
  | nil => intro a ha; simpa [String.intercalate.go] using ha
  | cons b bs ih =>
    intro a ha
    simp only [String.intercalate.go]
    apply ih
    intro hcontra
    apply ha
    have hdata := congrArg String.data hcontra
    simp only [String.data_append] at hdata
    have h0 : a.data = [] := by
      have := List.append_eq_nil.mp (List.append_eq_nil.mp (by simpa using hdata)).1
      exact this.1
    exact String.ext h0

theorem clean_tail_ne_empty {l : List Char} {y : String}
    (h : clean_tail l = some y) : y ≠ "" := by
  unfold clean_tail at h
  cases hs : findSpans l with
  | cons span spans =>
    rw [hs] at h
    have hne : span ≠ [] := findSpansF_mem_ne_nil _ _ _ (hs ▸ List.mem_cons_self span spans)
    have hy : y = String.intercalate (" ") ((span :: spans).map String.mk) :=
      (Option.some.injEq .. ▸ h).symm
    subst hy
    simp only [List.map_cons, String.intercalate]
    apply intercalate_go_ne_empty
    intro hcontra
    exact hne (by simpa [String.ext_iff] using hcontra)
  | nil =>
    rw [hs] at h
    by_cases h1 : specialHit l
    · simp [h1] at h
    · simp only [h1, Bool.false_eq_true, if_false] at h
      by_cases h2 : l.isEmpty
      · simp [h2] at h
      · simp only [h2, Bool.false_eq_true, if_false, Option.some.injEq] at h
        subst h
        unfold rewritesGet
        by_cases h3 : String.mk l = rewriteKey
        · rw [if_pos h3]; decide
        · rw [if_neg h3]
          intro hcontra
          apply h2
          rw [show l = ([] : List Char) from by simpa [String.ext_iff] using hcontra]
          rfl

/-- A cleaned text is inert when it exhibits none of the characters or
substrings that any pass of text.py's `clean_choice_for_voice` reacts to,
does not start with a non-verbal action verb, and is not a rewrite key. -/
def cleanInert (y : String) : Bool :=
  !(y.data.contains 'â') && !(y.data.contains '{') && !(y.data.contains '(') &&
  !(y.data.contains ')') && !(y.data.contains '[') &&
  !(containsSub (("Ugh!").data) y.data) && !(containsSub replacementsKey y.data) &&
  !(containsSub [squote, squote] y.data) && !(specialHit y.data) && !(y == rewriteKey)

theorem strippedTextPy_inert (y : String) (h : cleanInert y = true) :
    strippedTextPy y = y.data := by
  simp only [cleanInert, Bool.and_eq_true, Bool.not_eq_true'] at h
  obtain ⟨⟨⟨⟨⟨⟨⟨⟨⟨hb, hf⟩, hp⟩, hq⟩, ha⟩, hu⟩, hr⟩, hd⟩, _⟩, _⟩ := h
  have hbul : bulletTextPy = 'â' :: ('€' :: ['¢']) := rfl
  unfold strippedTextPy subLiteralSpaces stripFormatting stripPrefixes stripActions
    stripUnwanted replaceAll
  rw [hbul, subLiteralSpacesF_id 'â' _ _ _ (by simpa using hb),
    stripFormattingGo_id _ (by simpa using hf),
    stripPrefixesGo_id _ (by simpa using hp),
    stripActionsGo_id _ (by simpa using ha),
    stripUnwantedF_id _ _ hu (by simpa using hp) (by simpa using hq),
    replaceAllF_id _ _ _ _ hr]

/-- Claim C6 (amended): cleaning with text.py's `clean_choice_for_voice`
is idempotent on every input whose cleaned result is inert — it contains
no bullet, markup braces, parentheses, bracketed actions, `Ugh!`,
replacement-table or doubled-quote occurrences, does not start with a
non-verbal action verb, and is not a rewrite key.  (Idempotence fails in
general; see the counterexample.) -/
theorem clean_choice_for_voice_idempotent_on_inert (x y : String)
    (h1 : PText.clean_choice_for_voice x = some y) (h2 : cleanInert y = true) :
    PText.clean_choice_for_voice y = some y := by
  have hy : y ≠ "" := clean_tail_ne_empty (l := strippedTextPy x) h1
  have hst := strippedTextPy_inert y h2
  simp only [cleanInert, Bool.and_eq_true, Bool.not_eq_true'] at h2
  obtain ⟨⟨⟨⟨⟨⟨⟨⟨⟨hb, hf⟩, hp⟩, hq⟩, ha⟩, hu⟩, hr⟩, hd⟩, hsp⟩, hkey⟩ := h2
  show clean_tail (strippedTextPy y) = some y
  rw [hst]
  unfold clean_tail
  have hspans : findSpans y.data = [] := by
    unfold findSpans
    exact findSpansF_nil_of_no_dq _ _ hd
  rw [hspans]
  have hempty : y.data.isEmpty = false := by
    cases hdata : y.data with
    | nil => exact absurd (String.ext hdata) hy
    | cons c rest => rfl
  rw [if_neg (by simp [hsp]), if_neg (by simp [hempty])]
  have hmk : String.mk y.data = y := rfl
  rw [hmk]
  unfold rewritesGet
  rw [if_neg (by simpa using hkey)]

/-- Witness for the amended claim C6 at a concrete inert input. -/
theorem clean_choice_for_voice_idempotent_on_inert_witness :
    PText.clean_choice_for_voice ("Hello there.") = some ("Hello there.") :=
  clean_choice_for_voice_idempotent_on_inert ("Hello there.") ("Hello there.")
    (by decide) (by decide)

/-- Claim C6 (counterexample): cleaning is not idempotent as stated — the
quoted span `Say hi.` cleans to itself-without-quotes, which a second
application classifies as a non-verbal action line and maps to `none`. -/
theorem clean_choice_for_voice_not_idempotent :
    PText.clean_choice_for_voice (dquote2 ++ ("Say hi.") ++ dquote2) = some ("Say hi.") ∧
    PText.clean_choice_for_voice ("Say hi.") = none := by
  decide

/-- Claim C7 (amended): when, after the markup passes, the text contains
doubled-single-quote-delimited spans, text.py's `clean_choice_for_voice`
returns exactly those spans joined by single spaces (Python `" ".join`);
for a single span this is the span itself. -/
theorem clean_choice_for_voice_quoted_spans (x : String) (span : List Char)
    (spans : List (List Char)) (h : findSpans (strippedTextPy x) = span :: spans) :
    PText.clean_choice_for_voice x =
      some (String.intercalate (" ") ((span :: spans).map String.mk)) := by
  show clean_tail (strippedTextPy x) = _
  unfold clean_tail
  rw [h]

/-- Witness for the amended claim C7: the spec's own concrete scenario. -/
theorem clean_choice_for_voice_quoted_spans_witness :
    PText.clean_choice_for_voice (dquote2 ++ ("Wait, what?") ++ dquote2) =
      some ("Wait, what?") := by
  have h := clean_choice_for_voice_quoted_spans (dquote2 ++ ("Wait, what?") ++ dquote2)
    (("Wait, what?").data) [] (by decide)
  exact h.trans (by decide)

/-- Claim C7 (counterexample): with two quoted spans the result is their
space-separated join, not their concatenation. -/
theorem clean_choice_for_voice_joins_with_spaces :
    findSpans (strippedTextPy
        (dquote2 ++ ("Hm.") ++ dquote2 ++ dquote2 ++ ("No.") ++ dquote2)) =
      [("Hm.").data, ("No.").data] ∧
    PText.clean_choice_for_voice
        (dquote2 ++ ("Hm.") ++ dquote2 ++ dquote2 ++ ("No.") ++ dquote2) =
      some ("Hm. No.") ∧
    ("Hm. No.") ≠ ("Hm.") ++ ("No.") := by
  decide

theorem mem_insertByLine (c x : Choice) : ∀ (l : List Choice),
    x ∈ insertByLine c l ↔ x = c ∨ x ∈ l := by
  intro l
  induction l with
  | nil => simp [insertByLine]
  | cons b rest ih =>
    by_cases hb : b.line ≤ c.line
    · simp only [insertByLine, if_pos hb, List.mem_cons, ih]
      tauto
    · simp only [insertByLine, if_neg hb, List.mem_cons]

theorem mem_sortByLine_aux (x : Choice) : ∀ (l acc : List Choice),
    x ∈ l.foldl (fun acc c => insertByLine c acc) acc ↔ x ∈ acc ∨ x ∈ l := by
  intro l
  induction l with
  | nil => intro acc; simp
  | cons c rest ih =>
    intro acc
    simp only [List.foldl_cons, ih, mem_insertByLine, List.mem_cons]
    tauto

theorem mem_sortByLine (x : Choice) (l : List Choice) :
    x ∈ sortByLine l ↔ x ∈ l := by
  unfold sortByLine
  rw [mem_sortByLine_aux]
  simp

theorem pairwise_insertByLine (c : Choice) : ∀ (l : List Choice),
    l.Pairwise (fun a b => a.line ≤ b.line) →
    (insertByLine c l).Pairwise (fun a b => a.line ≤ b.line) := by
  intro l
  induction l with
  | nil => intro _; simp [insertByLine]
  | cons b rest ih =>
    intro h
    rw [List.pairwise_cons] at h
    by_cases hb : b.line ≤ c.line
    · rw [insertByLine, if_pos hb, List.pairwise_cons]
      refine ⟨?_, ih h.2⟩
      intro x hx
      rcases (mem_insertByLine c x rest).mp hx with rfl | hxr
      · exact hb
      · exact h.1 x hxr
    · rw [insertByLine, if_neg hb, List.pairwise_cons]
      refine ⟨?_, List.pairwise_cons.mpr h⟩
      intro x hx
      rcases List.mem_cons.mp hx with rfl | hxr
      · exact Nat.le_of_lt (Nat.lt_of_not_le hb)
      · exact Nat.le_trans (Nat.le_of_lt (Nat.lt_of_not_le hb)) (h.1 x hxr)

theorem sortByLine_sorted_aux : ∀ (l acc : List Choice),
    acc.Pairwise (fun a b => a.line ≤ b.line) →
    (l.foldl (fun acc c => insertByLine c acc) acc).Pairwise
      (fun a b => a.line ≤ b.line) := by
  intro l
  induction l with
  | nil => intro acc h; simpa using h
  | cons c rest ih =>
    intro acc h
    exact ih _ (pairwise_insertByLine c acc h)

theorem sortByLine_sorted (l : List Choice) :
    (sortByLine l).Pairwise (fun a b => a.line ≤ b.line) :=
  sortByLine_sorted_aux l [] (by simp)

theorem find_context_at_line_aux {α : Type} (getLine : α → Nat) (line : Nat) :
    ∀ (items : List α) (acc : Option α) (x : α),
    items.foldl
      (fun acc it =>
        if getLine it ≤ line then
          match acc with
          | none => some it
          | some best => if getLine best ≤ getLine it then some it else some best
        else acc)
      acc = some x →
    (acc = some x ∨ (x ∈ items ∧ getLine x ≤ line)) ∧
    (∀ y ∈ items, getLine y ≤ line → getLine y ≤ getLine x) ∧
    (∀ b, acc = some b → getLine b ≤ getLine x) := by
  intro items
  induction items with
  | nil =>
    intro acc x h
    simp only [List.foldl_nil] at h
    refine ⟨Or.inl h, by simp, ?_⟩
    intro b hb
    rw [h] at hb
    cases hb
    exact Nat.le_refl _
  | cons it rest ih =>
    intro acc x h
    simp only [List.foldl_cons] at h
    by_cases hit : getLine it ≤ line
    · rw [if_pos hit] at h
      cases acc with
      | none =>
        obtain ⟨ih1, ih2, ih3⟩ := ih (some it) x h
        have hix : getLine it ≤ getLine x := ih3 it rfl
        refine ⟨?_, ?_, ?_⟩
        · rcases ih1 with h1 | ⟨hmem, hle⟩
          · cases h1
            exact Or.inr ⟨List.mem_cons_self it rest, hit⟩
          · exact Or.inr ⟨List.mem_cons_of_mem it hmem, hle⟩
        · intro y hy hyline
          rcases List.mem_cons.mp hy with rfl | hyr
          · exact hix
          · exact ih2 y hyr hyline
        · intro b hb
          cases hb
      | some best =>
        by_cases hbest : getLine best ≤ getLine it
        · rw [show (match some best with
              | none => some it
              | some b => if getLine b ≤ getLine it then some it else some b) = some it
              from by simp [hbest]] at h
          obtain ⟨ih1, ih2, ih3⟩ := ih (some it) x h
          have hix : getLine it ≤ getLine x := ih3 it rfl
          refine ⟨?_, ?_, ?_⟩
          · rcases ih1 with h1 | ⟨hmem, hle⟩
            · cases h1
              exact Or.inr ⟨List.mem_cons_self it rest, hit⟩
            · exact Or.inr ⟨List.mem_cons_of_mem it hmem, hle⟩
          · intro y hy hyline
            rcases List.mem_cons.mp hy with rfl | hyr
            · exact hix
            · exact ih2 y hyr hyline
          · intro b hb
            cases hb
            exact Nat.le_trans hbest hix
        · rw [show (match some best with
              | none => some it
              | some b => if getLine b ≤ getLine it then some it else some b) = some best
              from by simp [hbest]] at h
          obtain ⟨ih1, ih2, ih3⟩ := ih (some best) x h
          have hbx : getLine best ≤ getLine x := ih3 best rfl
          refine ⟨?_, ?_, ?_⟩
          · rcases ih1 with h1 | ⟨hmem, hle⟩
            · exact Or.inl h1
            · exact Or.inr ⟨List.mem_cons_of_mem it hmem, hle⟩
          · intro y hy hyline
            rcases List.mem_cons.mp hy with rfl | hyr
            · exact Nat.le_trans (Nat.le_of_lt (Nat.lt_of_not_le hbest)) hbx
            · exact ih2 y hyr hyline
          · intro b hb
            cases hb
            exact hbx
    · rw [if_neg hit] at h
      obtain ⟨ih1, ih2, ih3⟩ := ih acc x h
      refine ⟨?_, ?_, ih3⟩
      · rcases ih1 with h1 | ⟨hmem, hle⟩
        · exact Or.inl h1
        · exact Or.inr ⟨List.mem_cons_of_mem it hmem, hle⟩
      · intro y hy hyline
        rcases List.mem_cons.mp hy with rfl | hyr
        · exact absurd hyline hit
        · exact ih2 y hyr hyline

/-- What `_find_context_at_line` returns: an item at or before the target
line whose line is maximal among the qualifying items. -/
theorem find_context_at_line_spec {α : Type} (getLine : α → Nat) (items : List α)
    (line : Nat) (x : α) (h : find_context_at_line getLine items line = some x) :
    x ∈ items ∧ getLine x ≤ line ∧
      ∀ y ∈ items, getLine y ≤ line → getLine y ≤ getLine x := by
  obtain ⟨h1, h2, _⟩ := find_context_at_line_aux getLine line items none x h
  rcases h1 with h1 | ⟨hmem, hle⟩
  · cases h1
  · exact ⟨hmem, hle, h2⟩

theorem process_choice_eq {st : TState} {menu : Menu} {c0 c : Choice}
    (h : process_choice st menu c0 = some c) :
    ∃ lbl : Label, find_label_at_line st.labels c0.line = some lbl ∧
      c = { c0 with
            label := some lbl.label,
            prev_dialogue := some (find_prev_dialogue st.dialogues
              (find_menu_before_line st.menus menu.line) menu.line) } := by
  unfold process_choice at h
  cases hl : find_label_at_line st.labels c0.line with
  | none => rw [hl] at h; cases h
  | some lbl =>
    rw [hl] at h
    exact ⟨lbl, rfl, (Option.some.injEq .. ▸ h).symm⟩

theorem process_choices_mem {st : TState} {menu : Menu} :
    ∀ {cs out : List Choice}, process_choices st menu cs = some out →
    ∀ {c : Choice}, c ∈ out → ∃ c0 ∈ cs, process_choice st menu c0 = some c := by
  intro cs
  induction cs with
  | nil =>
    intro out h c hc
    cases h
    cases hc
  | cons c1 rest ih =>
    intro out h c hc
    unfold process_choices at h
    cases h1 : process_choice st menu c1 with
    | none => rw [h1] at h; cases h
    | some c2 =>
      cases h2 : process_choices st menu rest with
      | none => rw [h1, h2] at h; cases h
      | some cs2 =>
        rw [h1, h2] at h
        cases h
        rcases List.mem_cons.mp hc with rfl | hcr
        · exact ⟨c1, List.mem_cons_self c1 rest, h1⟩
        · obtain ⟨c0, hc0, hp⟩ := ih h2 hcr
          exact ⟨c0, List.mem_cons_of_mem c1 hc0, hp⟩

theorem process_menus_mem {st : TState} :
    ∀ {ms : List Menu} {out : List Choice}, process_menus st ms = some out →
    ∀ {c : Choice}, c ∈ out →
    ∃ m ∈ ms, ∃ sub, process_choices st m m.choices = some sub ∧ c ∈ sub := by
  intro ms
  induction ms with
  | nil =>
    intro out h c hc
    cases h
    cases hc
  | cons m rest ih =>
    intro out h c hc
    unfold process_menus at h
    cases h1 : process_choices st m m.choices with
    | none => rw [h1] at h; cases h
    | some l1 =>
      cases h2 : process_menus st rest with
      | none => rw [h1, h2] at h; cases h
      | some l2 =>
        rw [h1, h2] at h
        cases h
        rcases List.mem_append.mp hc with hcl | hcr
        · exact ⟨m, List.mem_cons_self m rest, l1, h1, hcl⟩
        · obtain ⟨m2, hm2, sub, hsub, hcsub⟩ := ih h2 hcr
          exact ⟨m2, List.mem_cons_of_mem m hm2, sub, hsub, hcsub⟩

/-- Every record emitted by `start` comes from a collected menu's choice,
enriched with the label found at its line and the dialogues between the
previous menu and its menu. -/
theorem startTransform_mem {st : TState} {out : List Choice} {c : Choice}
    (h : startTransform st = some out) (hc : c ∈ out) :
    ∃ menu ∈ st.menus, ∃ c0 ∈ menu.choices, ∃ lbl : Label,
      find_label_at_line st.labels c0.line = some lbl ∧
      c = { c0 with
            label := some lbl.label,
            prev_dialogue := some (find_prev_dialogue st.dialogues
              (find_menu_before_line st.menus menu.line) menu.line) } := by
  unfold startTransform at h
  cases hm : process_menus st st.menus with
  | none => rw [hm] at h; cases h
  | some flat =>
    rw [hm] at h
    simp only [Option.map_some', Option.some.injEq] at h
    subst h
    have hcf : c ∈ flat := (mem_sortByLine c flat).mp hc
    obtain ⟨menu, hmenu, sub, hsub, hcsub⟩ := process_menus_mem hm hcf
    obtain ⟨c0, hc0, hp⟩ := process_choices_mem hsub hcsub
    obtain ⟨lbl, hlbl, hceq⟩ := process_choice_eq hp
    exact ⟨menu, hmenu, c0, hc0, lbl, hlbl, hceq⟩

mutual

/-- The labels a statement subtree contributes to `self.labels`, in
callback order (children before the node's own label). -/
def labelsOfT : PTree → List Label
  | .dialogueStx _ _ => []
  | .voicedStx _ _ _ => []
  | .labelStx n b => labelsOfF b ++ [{ line := n.line, label := n.text }]
  | .menuStx _ cs => labelsOfC cs

/-- The labels of a statement list. -/
def labelsOfF : PForest → List Label
  | .nil => []
  | .cons t ts => labelsOfT t ++ labelsOfF ts

/-- The labels inside one choice. -/
def labelsOfCh : CStx → List Label
  | .mk _ _ b => labelsOfF b

/-- The labels inside a menu's choices. -/
def labelsOfC : CForest → List Label
  | .nil => []
  | .cons c cs => labelsOfCh c ++ labelsOfC cs

end

mutual

theorem transform_labels_item : ∀ (t : PTree) (st : TState),
    ((transformItem t st).2).labels = st.labels ++ labelsOfT t
  | .dialogueStx c t0, st => by simp [transformItem, labelsOfT]
  | .voicedStx v c t0, st => by
    simp [transformItem, labelsOfT, apply_ite TState.labels]
  | .labelStx n b, st => by
    have h := transform_labels_forest b st
    simp [transformItem, labelsOfT, h, List.append_assoc]
  | .menuStx ln cs, st => by
    have h := transform_labels_choices cs st
    simp [transformItem, labelsOfT, h]

theorem transform_labels_forest : ∀ (f : PForest) (st : TState),
    ((transformForest f st).2).labels = st.labels ++ labelsOfF f
  | .nil, st => by simp [transformForest, labelsOfF]
  | .cons t ts, st => by
    have h1 := transform_labels_item t st
    have h2 := transform_labels_forest ts (transformItem t st).2
    simp [transformForest, labelsOfF, h1, h2, List.append_assoc]

theorem transform_labels_choice : ∀ (c : CStx) (st : TState),
    ((transformChoice c st).2).labels = st.labels ++ labelsOfCh c
  | .mk q cond b, st => by
    have h := transform_labels_forest b st
    simp [transformChoice, labelsOfCh, h]

theorem transform_labels_choices : ∀ (cs : CForest) (st : TState),
    ((transformChoices cs st).2).labels = st.labels ++ labelsOfC cs
  | .nil, st => by simp [transformChoices, labelsOfC]
  | .cons c cs, st => by
    have h1 := transform_labels_choice c st
    have h2 := transform_labels_choices cs (transformChoice c st).2
    simp [transformChoices, labelsOfC, h1, h2, List.append_assoc]

end

/-- The invariant every dialogue collected in `self.dialogues` satisfies:
it was voiced, and it passed `_filter_dialogue`. -/
def dlgOk (d : Dialogue) : Prop :=
  d.voice.isSome = true ∧ filter_dialogue d = true

mutual

theorem dialogues_ok_item : ∀ (t : PTree) (st : TState),
    (∀ d ∈ st.dialogues, dlgOk d) →
    ∀ d ∈ ((transformItem t st).2).dialogues, dlgOk d
  | .dialogueStx c t0, st, h => by simpa [transformItem] using h
  | .voicedStx v c t0, st, h => by
    intro d hd
    simp only [transformItem] at hd
    by_cases hf : filter_dialogue
        { line := c.line, character := c.text, text := t0.text, voice := some v.text }
    · rw [if_pos hf] at hd
      simp only at hd
      rcases List.mem_append.mp hd with h1 | h2
      · exact h d h1
      · rw [List.mem_singleton] at h2
        subst h2
        exact ⟨rfl, hf⟩
    · rw [if_neg hf] at hd
      exact h d hd
  | .labelStx n b, st, h => by
    intro d hd
    simp only [transformItem] at hd
    exact dialogues_ok_forest b st h d hd
  | .menuStx ln cs, st, h => by
    intro d hd
    simp only [transformItem] at hd
    exact dialogues_ok_choices cs st h d hd

theorem dialogues_ok_forest : ∀ (f : PForest) (st : TState),
    (∀ d ∈ st.dialogues, dlgOk d) →
    ∀ d ∈ ((transformForest f st).2).dialogues, dlgOk d
  | .nil, st, h => by simpa [transformForest] using h
  | .cons t ts, st, h => by
    intro d hd
    simp only [transformForest] at hd
    exact dialogues_ok_forest ts (transformItem t st).2
      (dialogues_ok_item t st h) d hd

theorem dialogues_ok_choice : ∀ (c : CStx) (st : TState),
    (∀ d ∈ st.dialogues, dlgOk d) →
    ∀ d ∈ ((transformChoice c st).2).dialogues, dlgOk d
  | .mk q cond b, st, h => by
    intro d hd
    simp only [transformChoice] at hd
    exact dialogues_ok_forest b st h d hd

theorem dialogues_ok_choices : ∀ (cs : CForest) (st : TState),
    (∀ d ∈ st.dialogues, dlgOk d) →
    ∀ d ∈ ((transformChoices cs st).2).dialogues, dlgOk d
  | .nil, st, h => by simpa [transformChoices] using h
  | .cons c cs, st, h => by
    intro d hd
    simp only [transformChoices] at hd
    exact dialogues_ok_choices cs (transformChoice c st).2
      (dialogues_ok_choice c st h) d hd

end

mutual

/-- Modelled from the spec: the walker threads `current_label` ("the name
of the nearest enclosing Label, or null at top level"), replacing it on
entering a `Label` node; each choice is emitted with the current label.
This is the claim-side reading used to compare against the code. -/
def spec_enclosing_item (cur : Option String) : PTree → List (Nat × Option String)
  | .dialogueStx _ _ => []
  | .voicedStx _ _ _ => []
  | .labelStx n b => spec_enclosing_forest (some n.text) b
  | .menuStx _ cs => spec_enclosing_cforest cur cs

/-- Spec-side current-label walk over a statement list. -/
def spec_enclosing_forest (cur : Option String) : PForest → List (Nat × Option String)
  | .nil => []
  | .cons t ts => spec_enclosing_item cur t ++ spec_enclosing_forest cur ts

/-- Spec-side current-label walk over a choice: the choice's line is
paired with the nearest enclosing label, then its children are walked. -/
def spec_enclosing_choice (cur : Option String) : CStx → List (Nat × Option String)
  | .mk q _ b => (q.line, cur) :: spec_enclosing_forest cur b

/-- Spec-side current-label walk over a menu's choices. -/
def spec_enclosing_cforest (cur : Option String) : CForest → List (Nat × Option String)
  | .nil => []
  | .cons c cs => spec_enclosing_choice cur c ++ spec_enclosing_cforest cur cs

end

/-- The script of the claim C2 counterexample: a nested label `b` whose
block closes before a sibling menu that is still inside label `a`. -/
def tsC2 : PForest :=
  .cons (.labelStx { line := 1, text := "a" }
    (.cons (.labelStx { line := 2, text := "b" }
        (.cons (.dialogueStx { line := 3, text := "n" } { line := 3, text := "hi" }) .nil))
      (.cons (.menuStx 4 (.cons (.mk { line := 5, text := "opt" } none .nil) .nil)) .nil)))
    .nil

/-- Claim C2 (counterexample): the emitted record's `label` is `b`, the
nearest label by line, although the nearest *enclosing* label of the
choice node is `a` — so the claim as stated is false on this script. -/
theorem choice_label_not_enclosing_label :
    choices_transform tsC2 =
      some [{ line := 5, choice := "opt", condition := none, label := some ("b"),
              prev_dialogue := some [], next_dialogue := [] }] ∧
    spec_enclosing_forest none tsC2 = [(5, some ("a"))] ∧
    some ("b") ≠ some ("a") := by
  decide

/-- Claim C2 (amended): every emitted record's `label` field is the name
of the textually nearest *preceding* collected label — one whose line is
maximal among the script's labels at or before the choice's line —
regardless of nesting; when no label precedes, `start` raises instead of
emitting a null label. -/
theorem choice_label_nearest_preceding (ts : PForest) (out : List Choice)
    (h : choices_transform ts = some out) (c : Choice) (hc : c ∈ out) :
    ∃ lbl : Label, lbl ∈ labelsOfF ts ∧ lbl.line ≤ c.line ∧
      (∀ l2 ∈ labelsOfF ts, l2.line ≤ c.line → l2.line ≤ lbl.line) ∧
      c.label = some lbl.label := by
  unfold choices_transform at h
  obtain ⟨menu, hmenu, c0, hc0, lbl, hlbl, hceq⟩ := startTransform_mem h hc
  have hlabels : ((transformForest ts {}).2).labels = labelsOfF ts := by
    rw [transform_labels_forest]
    rfl
  rw [find_label_at_line, hlabels] at hlbl
  obtain ⟨hmem, hle, hmax⟩ := find_context_at_line_spec Label.line (labelsOfF ts)
    c0.line lbl hlbl
  subst hceq
  exact ⟨lbl, hmem, hle, hmax, rfl⟩

/-- Witness script for the parser claims: one label, one voiced dialogue,
one menu with two choices. -/
def tsWit : PForest :=
  .cons (.labelStx { line := 1, text := "s" }
    (.cons (.voicedStx { line := 2, text := "v.flac" } { line := 3, text := "n" }
        { line := 3, text := "hello" })
      (.cons (.menuStx 4
          (.cons (.mk { line := 5, text := "opt" } (some ("cond")) .nil)
            (.cons (.mk { line := 6, text := "opt2" } none .nil) .nil)))
        .nil)))
    .nil

/-- The voiced dialogue the witness script collects. -/
def dWit : Dialogue :=
  { line := 3, character := "n", text := "hello", voice := some ("v.flac") }

/-- The first record the witness script emits. -/
def cWit1 : Choice :=
  { line := 5, choice := "opt", condition := some ("cond"), label := some ("s"),
    prev_dialogue := some [dWit], next_dialogue := [] }

/-- The second record the witness script emits. -/
def cWit2 : Choice :=
  { line := 6, choice := "opt2", condition := none, label := some ("s"),
    prev_dialogue := some [dWit], next_dialogue := [] }

/-- The witness script's full output. -/
def outWit : List Choice := [cWit1, cWit2]

/-- Witness for the amended claim C2 at the concrete witness script. -/
theorem choice_label_nearest_preceding_witness :
    ∃ lbl : Label, lbl ∈ labelsOfF tsWit ∧ lbl.line ≤ cWit1.line ∧
      (∀ l2 ∈ labelsOfF tsWit, l2.line ≤ cWit1.line → l2.line ≤ lbl.line) ∧
      cWit1.label = some lbl.label :=
  choice_label_nearest_preceding tsWit outWit (by decide) cWit1 (by decide)

/-- Claim C4: the record list `start` returns is sorted by ascending
source line. -/
theorem choices_sorted_by_line (ts : PForest) (out : List Choice)
    (h : choices_transform ts = some out) :
    out.Pairwise (fun a b => a.line ≤ b.line) := by
  unfold choices_transform startTransform at h
  cases hm : process_menus (transformForest ts {}).2 ((transformForest ts {}).2).menus with
  | none => rw [hm] at h; cases h
  | some flat =>
    rw [hm] at h
    simp only [Option.map_some', Option.some.injEq] at h
    subst h
    exact sortByLine_sorted flat

/-- Witness for claim C4 at the concrete witness script. -/
theorem choices_sorted_by_line_witness :
    outWit.Pairwise (fun a b => a.line ≤ b.line) :=
  choices_sorted_by_line tsWit outWit (by decide)

/-- Claim C3: transforming a `voiced_dialogue` subtree yields exactly one
`Dialogue` whose `voice` holds the voice path, whose character and text
come from the dialogue line's tokens, and whose line number is the
dialogue line's (the character token's `meta.line`), never the voice
token's. -/
theorem voiced_dialogue_fusion (v c t : Text) (st : TState) :
    (transformItem (.voicedStx v c t) st).1 =
      .dlg { line := c.line, character := c.text, text := t.text, voice := some v.text } :=
  rfl

/-- Claim C10: every dialogue in any emitted record's `prev_dialogue`
context was voiced and passed `_filter_dialogue`: its `voice` field is
set, its text does not start with a note marker and does not contain a
`{fast}` tag. -/
theorem prev_dialogue_voiced_and_filtered (ts : PForest) (out : List Choice)
    (h : choices_transform ts = some out) (c : Choice) (hc : c ∈ out)
    (pd : List Dialogue) (hpd : c.prev_dialogue = some pd)
    (d : Dialogue) (hd : d ∈ pd) :
    d.voice.isSome = true ∧
    (("Note:").data.isPrefixOf d.text.data) = false ∧
    containsSub (("{fast}").data) d.text.data = false := by
  unfold choices_transform at h
  obtain ⟨menu, hmenu, c0, hc0, lbl, hlbl, hceq⟩ := startTransform_mem h hc
  subst hceq
  simp only [Option.some.injEq] at hpd
  subst hpd
  have hdmem : d ∈ ((transformForest ts {}).2).dialogues := by
    have := hd
    unfold find_prev_dialogue at this
    exact (List.mem_filter.mp this).1
  have hok : dlgOk d := dialogues_ok_forest ts {} (by intro d2 hd2; cases hd2) d hdmem
  obtain ⟨h1, h2⟩ := hok
  unfold filter_dialogue at h2
  simp only [Bool.not_eq_true', Bool.or_eq_false_iff] at h2
  exact ⟨h1, h2.1, h2.2⟩

/-- Witness for claim C10 at the concrete witness script. -/
theorem prev_dialogue_voiced_and_filtered_witness :
    dWit.voice.isSome = true ∧
    (("Note:").data.isPrefixOf dWit.text.data) = false ∧
    containsSub (("{fast}").data) dWit.text.data = false :=
  prev_dialogue_voiced_and_filtered tsWit outWit (by decide) cWit1 (by decide)
    [dWit] (by decide) dWit (by decide)

/-- Claim C1 (code evaluation at the failing input): a choice whose block
holds a dialogue, then a nested menu, then another dialogue.  The
docstring of `extract_next_dialogue` says collection runs "up to next
menu", but the transformed menu subtree is a `Tree`, not a `Menu`
dataclass, so the `isinstance(item, Menu)` break never fires and the
dialogue *after* the nested menu is still collected. -/
theorem extract_next_dialogue_passes_nested_menu :
    (transformChoice
        (.mk { line := 1, text := "outer opt" } none
          (.cons (.voicedStx { line := 2, text := "v1.flac" } { line := 3, text := "n" }
              { line := 3, text := "first" })
            (.cons (.menuStx 4 (.cons (.mk { line := 5, text := "inner opt" } none .nil) .nil))
              (.cons (.voicedStx { line := 7, text := "v2.flac" } { line := 8, text := "n" }
                  { line := 8, text := "second" })
                .nil))))
        {}).1.next_dialogue =
      [{ line := 3, character := "n", text := "first", voice := some ("v1.flac") },
       { line := 8, character := "n", text := "second", voice := some ("v2.flac") }] := by
  decide

/-- The in-place update `filter_spoken_lines` applies to a record it
retains: `clean` set to the cleaned text, `output` to the derived path. -/
def retainedUpdate (c : Models.ChoiceResult) : Models.ChoiceResult :=
  { c with
    clean := PVoice.clean_choice_for_voice c.choice,
    output := some (get_output_path c) }

/-- The claim-side selection for C5, written from the claim: keep exactly
the records whose cleaned text is non-null and differs from the cleaned
text of every earlier record of the list. -/
def spec_retained_go (prev : List Models.ChoiceResult) :
    List Models.ChoiceResult → List Models.ChoiceResult
  | [] => []
  | c :: rest =>
    if (PVoice.clean_choice_for_voice c.choice).isSome = true ∧
        ∀ p ∈ prev, PVoice.clean_choice_for_voice p.choice ≠
          PVoice.clean_choice_for_voice c.choice then
      c :: spec_retained_go (prev ++ [c]) rest
    else
      spec_retained_go (prev ++ [c]) rest

/-- The claim-side selection over a whole list. -/
def spec_retained (source : List Models.ChoiceResult) : List Models.ChoiceResult :=
  spec_retained_go [] source

theorem clean_choice_ne_empty {x y : String}
    (h : PVoice.clean_choice_for_voice x = some y) : y ≠ "" :=
  clean_tail_ne_empty (l := strippedVoicePy x) h

theorem filter_spoken_lines_go_spec :
    ∀ (rest : List Models.ChoiceResult) (prev : List Models.ChoiceResult)
      (seen : List String),
    (∀ s : String, seen.contains s = true ↔
      ∃ p ∈ prev, PVoice.clean_choice_for_voice p.choice = some s) →
    filter_spoken_lines_go seen rest = (spec_retained_go prev rest).map retainedUpdate := by
  intro rest
  induction rest with
  | nil => intro prev seen _; rfl
  | cons c rest ih =>
    intro prev seen hinv
    unfold filter_spoken_lines_go spec_retained_go
    cases hcl : PVoice.clean_choice_for_voice c.choice with
    | none =>
      dsimp only
      have hspec : ¬((none : Option String).isSome = true ∧
          ∀ p ∈ prev, PVoice.clean_choice_for_voice p.choice ≠ none) := by
        simp
      rw [if_neg hspec]
      apply ih (prev ++ [c]) seen
      intro s
      rw [hinv s]
      constructor
      · rintro ⟨p, hp, hpc⟩
        exact ⟨p, List.mem_append_left _ hp, hpc⟩
      · rintro ⟨p, hp, hpc⟩
        rcases List.mem_append.mp hp with h1 | h1
        · exact ⟨p, h1, hpc⟩
        · rw [List.mem_singleton] at h1
          subst h1
          rw [hcl] at hpc
          cases hpc
    | some s =>
      dsimp only
      have hne : ¬(s = "") := clean_choice_ne_empty hcl
      by_cases hseen : seen.contains s = true
      · have hex : ∃ p ∈ prev, PVoice.clean_choice_for_voice p.choice = some s :=
          (hinv s).mp hseen
        have hspec : ¬((some s : Option String).isSome = true ∧
            ∀ p ∈ prev, PVoice.clean_choice_for_voice p.choice ≠ some s) := by
          rintro ⟨_, hall⟩
          obtain ⟨p, hp, hpc⟩ := hex
          exact hall p hp hpc
        rw [if_neg hspec, if_neg (by
          intro hcontra
          rcases Bool.and_eq_true .. |>.mp hcontra with ⟨_, h2⟩
          rw [Bool.not_eq_true'] at h2
          rw [h2] at hseen
          exact absurd hseen (by decide))]
        apply ih (prev ++ [c]) seen
        intro x
        rw [hinv x]
        constructor
        · rintro ⟨p, hp, hpc⟩
          exact ⟨p, List.mem_append_left _ hp, hpc⟩
        · rintro ⟨p, hp, hpc⟩
          rcases List.mem_append.mp hp with h1 | h1
          · exact ⟨p, h1, hpc⟩
          · rw [List.mem_singleton] at h1
            subst h1
            rw [hcl] at hpc
            cases hpc
            exact hex
      · have hspec : ((some s : Option String)).isSome = true ∧
            ∀ p ∈ prev, PVoice.clean_choice_for_voice p.choice ≠ some s := by
          refine ⟨rfl, ?_⟩
          intro p hp hpc
          exact hseen ((hinv s).mpr ⟨p, hp, hpc⟩)
        rw [if_pos hspec, if_pos (by
          have h1 : (s == "") = false := by simpa using hne
          have h3 : s ∉ seen := by
            intro hmem
            exact hseen (by simpa using hmem)
          simp [h1, h3])]
        simp only [List.map_cons]
        have hhead : ({ c with clean := some s, output := some (get_output_path c) } :
            Models.ChoiceResult) = retainedUpdate c := by
          unfold retainedUpdate
          rw [hcl]
        rw [hhead]
        congr 1
        apply ih (prev ++ [c]) (s :: seen)
        intro x
        constructor
        · intro hx
          have hx2 : x ∈ s :: seen := by simpa using hx
          rcases List.mem_cons.mp hx2 with h1 | h1
          · subst h1
            exact ⟨c, List.mem_append_right _ (List.mem_singleton_self c), hcl⟩
          · obtain ⟨p, hp, hpc⟩ := (hinv x).mp (by simpa using h1)
            exact ⟨p, List.mem_append_left _ hp, hpc⟩
        · rintro ⟨p, hp, hpc⟩
          rcases List.mem_append.mp hp with h1 | h1
          · have : x ∈ seen := by simpa using (hinv x).mpr ⟨p, h1, hpc⟩
            simpa using List.mem_cons_of_mem s this
          · rw [List.mem_singleton] at h1
            subst h1
            rw [hcl] at hpc
            cases hpc
            simp

/-- Claim C5: post-processing retains exactly the records whose cleaned
text is non-null and differs from the cleaned text of every earlier record
— the first occurrence of each distinct cleaned text, excluding records
that clean to null — each retained record carrying its `clean` and
`output` updates. -/
theorem filter_spoken_lines_spec (source : List Models.ChoiceResult) :
    filter_spoken_lines source = (spec_retained source).map retainedUpdate := by
  apply filter_spoken_lines_go_spec source [] []
  intro s
  simp

/-- A bare record carrying only a choice text, as extraction would emit it
before post-processing. -/
def crBase (txt : String) : Models.ChoiceResult :=
  { choice := txt, condition := none, label := none,
    previous_dialogues := [], subsequent_dialogues := [] }

/-- Claim C9 (counterexample): of two records with the same choice text
`Hi.`, the second is filtered out, yet the call has set its `clean` field
— the record is not left as it was. -/
theorem filter_spoken_lines_mutates_filtered_record :
    filter_spoken_lines [crBase ("Hi."), crBase ("Hi.")] =
      [{ crBase ("Hi.") with
         clean := some ("Hi."), output := some (get_output_path (crBase ("Hi."))) }] ∧
    filter_spoken_lines_source_after [crBase ("Hi."), crBase ("Hi.")] =
      [{ crBase ("Hi.") with
         clean := some ("Hi."), output := some (get_output_path (crBase ("Hi."))) },
       { crBase ("Hi.") with clean := some ("Hi.") }] ∧
    ({ crBase ("Hi.") with clean := some ("Hi.") } : Models.ChoiceResult) ≠ crBase ("Hi.") := by
  decide

/-- Claim C9 (amended): post-processing does mutate its input records, but
only the `clean` field (set on every record to its cleaned text) and the
`output` field (set on retained records); `choice`, `condition`, `label`,
`previous_dialogues`, `subsequent_dialogues`, `path` and `line` are never
modified. -/
theorem filter_spoken_lines_mutates_only_clean_output
    (source : List Models.ChoiceResult) :
    List.Forall₂
      (fun (a b : Models.ChoiceResult) =>
        b.choice = a.choice ∧ b.condition = a.condition ∧ b.label = a.label ∧
        b.previous_dialogues = a.previous_dialogues ∧
        b.subsequent_dialogues = a.subsequent_dialogues ∧ b.path = a.path ∧
        b.line = a.line ∧ b.clean = PVoice.clean_choice_for_voice a.choice ∧
        (b.output = a.output ∨ b.output = some (get_output_path a)))
      source (filter_spoken_lines_source_after source) := by
  suffices h : ∀ (rest : List Models.ChoiceResult) (seen : List String),
      List.Forall₂ _ rest (filter_spoken_lines_source_after_go seen rest) from
    h source []
  intro rest
  induction rest with
  | nil => intro seen; exact List.Forall₂.nil
  | cons c rest ih =>
    intro seen
    unfold filter_spoken_lines_source_after_go
    cases hcl : PVoice.clean_choice_for_voice c.choice with
    | none =>
      dsimp only
      exact List.Forall₂.cons
        ⟨rfl, rfl, rfl, rfl, rfl, rfl, rfl, by rw [hcl], Or.inl rfl⟩ (ih seen)
    | some s =>
      dsimp only
      by_cases hk : (!(s == "") && !(seen.contains s)) = true
      · rw [if_pos hk]
        exact List.Forall₂.cons
          ⟨rfl, rfl, rfl, rfl, rfl, rfl, rfl, by rw [hcl], Or.inr rfl⟩ (ih (s :: seen))
      · rw [if_neg hk]
        exact List.Forall₂.cons
          ⟨rfl, rfl, rfl, rfl, rfl, rfl, rfl, by rw [hcl], Or.inl rfl⟩ (ih seen)

/-- Claim C8 (counterexample): `run_pipeline`'s extraction loop has no
per-file exception handling — with a failing second file, the whole batch
aborts with that error and the third file's records are never produced. -/
theorem run_pipeline_extract_aborts_batch :
    run_pipeline_extract
        [(("a.rpy"), Except.ok [1]), (("b.rpy"), Except.error ("boom")),
         (("c.rpy"), Except.ok [2])] =
      Except.error ("boom") ∧
    ∀ out : List Nat,
      run_pipeline_extract
          [(("a.rpy"), Except.ok [1]), (("b.rpy"), Except.error ("boom")),
           (("c.rpy"), Except.ok [2])] ≠
        Except.ok out := by
  refine ⟨rfl, ?_⟩
  intro out h
  rw [show run_pipeline_extract
      [(("a.rpy"), Except.ok [1]), (("b.rpy"), Except.error ("boom")),
       (("c.rpy"), Except.ok [2])] = (Except.error ("boom") : Except String (List Nat))
    from rfl] at h
  cases h

/-- Claim C8 (amended): in `extract_all_choices` a per-file exception is
recorded as a (path, error) pair and the batch continues: the errors are
exactly the failing files in order, and the results are exactly the
concatenated records of the succeeding files — unaffected by any failure
elsewhere in the batch. -/
theorem extract_all_choices_continues {α : Type} :
    ∀ (files : List (String × Except String (List α))),
    (extract_all_choices files).1 =
      files.filterMap (fun f =>
        match f.2 with
        | .error e => some (f.1, e)
        | .ok _ => none) ∧
    (extract_all_choices files).2 =
      (files.filterMap (fun f =>
        match f.2 with
        | .ok cs => some cs
        | .error _ => none)).flatten := by
  intro files
  induction files with
  | nil => exact ⟨rfl, rfl⟩
  | cons f rest ih =>
    obtain ⟨p, e⟩ := f
    cases e with
    | error err =>
      unfold extract_all_choices
      simp only [List.filterMap_cons]
      exact ⟨by rw [ih.1], by rw [ih.2]⟩
    | ok cs =>
      unfold extract_all_choices
      simp only [List.filterMap_cons]
      refine ⟨by rw [ih.1], ?_⟩
      simp only [List.flatten_cons]
      rw [ih.2]
